import Mathlib

/-!
Verification of the Resume-Link-Scraper API (src/main.py).

Strings are modelled as `List Char`.  Python library behaviour that the code
relies on is embedded faithfully where it decides a claim:

* `urllib.parse.urlsplit` / `urlunsplit` are modelled.  We follow the modern
  CPython semantics: leading C0-control/space characters are stripped, the
  bytes TAB/CR/LF are removed, the scheme is recognised before the first `:`
  when it starts with an ASCII letter and consists of scheme characters, a
  `//`-prefixed remainder yields the netloc up to the first `/ ? #`, an
  unbalanced square bracket in the netloc raises `ValueError` (modelled as
  `none`), the fragment is split at the first `#` and the query at the first
  `?`.  The NFKC check on non-ASCII netlocs and the 3.11+ bracketed-host
  validation are not modelled; no claim depends on them and every concrete
  input used below is bracket-free ASCII.
* Python `str.strip` is modelled on the ASCII whitespace characters.
* `random.shuffle` (and the arbitrary iteration order of a Python `set`) is
  modelled by an arbitrary permutation hypothesis.
* network transport, the PDF parser, `trafilatura` and `readability` are
  external collaborators and enter as parameters of the model.
-/

/-- ASCII whitespace, as stripped by Python `str.strip()`. -/
def pyWs (c : Char) : Bool :=
  c = ' ' || c = '\t' || c = '\n' || c = '\r' || c = '\x0b' || c = '\x0c'

/-- Remove the longest suffix of characters satisfying `p`
(the right-hand half of Python `rstrip`). -/
def dropWhileRight (p : Char → Bool) (s : List Char) : List Char :=
  (s.reverse.dropWhile p).reverse

/-- Python `str.strip()` on ASCII whitespace. -/
def pyStrip (s : List Char) : List Char :=
  dropWhileRight pyWs (s.dropWhile pyWs)

/-- `URLExtractor._TRAILING_PUNCT = ")],.;:>\"'"`. -/
def trailingPunct : List Char := ")],.;:>\"'".toList

/-- Membership of the trailing-punctuation set. -/
def isTrailingPunct (c : Char) : Bool := trailingPunct.contains c

/-- `URLExtractor._strip_trailing_punct`: `url.rstrip(cls._TRAILING_PUNCT)`. -/
def strip_trailing_punct (s : List Char) : List Char :=
  dropWhileRight isTrailingPunct s

/-- Python substring containment `pat in s`. -/
def hasSub (pat : List Char) : List Char → Bool
  | [] => pat.isEmpty
  | c :: t => pat.isPrefixOf (c :: t) || hasSub pat t

/-! ### `urllib.parse.urlsplit` / `urlunsplit` -/

/-- The result record of `urlsplit` (path is the `url` field of
CPython's `SplitResult`). -/
structure SplitResult where
  scheme : List Char
  netloc : List Char
  path : List Char
  query : List Char
  fragment : List Char
deriving DecidableEq, Repr

/-- `scheme_chars` of `urllib.parse`: ASCII letters, digits, `+`, `-`, `.`. -/
def schemeChar (c : Char) : Bool :=
  c.isAlpha || c.isDigit || c = '+' || c = '-' || c = '.'

/-- CPython strips leading C0-control and space characters from the URL. -/
def lstripControl (s : List Char) : List Char :=
  s.dropWhile (fun c => c.toNat ≤ 0x20)

/-- CPython removes the unsafe bytes TAB, CR, LF before parsing. -/
def removeUnsafe (s : List Char) : List Char :=
  s.filter (fun c => !(c = '\t' || c = '\r' || c = '\n'))

/-- Split off the scheme: `i = url.find(':')` with `i > 0` corresponds to the
part before the first `:` being nonempty and a `:` occurring (the remainder
after the colon-search being nonempty); the scheme must start with an ASCII
letter and consist of scheme characters only, and is lowercased. -/
def splitScheme (s : List Char) : List Char × List Char :=
  let pre := s.takeWhile (· ≠ ':')
  let rest := s.dropWhile (· ≠ ':')
  if rest ≠ [] ∧ pre ≠ [] ∧ (pre.headD ' ').isAlpha ∧ pre.all schemeChar then
    (pre.map Char.toLower, rest.tail)
  else ([], s)

/-- Characters that terminate the netloc. -/
def notDelim (c : Char) : Bool := !(c = '/' || c = '?' || c = '#')

/-- Split a string at the first occurrence of `c`: `(before, after)`,
with `after = []` when `c` does not occur (Python `str.split(c, 1)`
guarded by `c in s`). -/
def splitFirst (c : Char) (s : List Char) : List Char × List Char :=
  (s.takeWhile (· ≠ c), (s.dropWhile (· ≠ c)).tail)

/-- Unbalanced square bracket in the netloc (raises `ValueError` in CPython). -/
def bracketMismatch (netloc : List Char) : Prop :=
  ('[' ∈ netloc ∧ ']' ∉ netloc) ∨ (']' ∈ netloc ∧ '[' ∉ netloc)

instance (netloc : List Char) : Decidable (bracketMismatch netloc) := by
  unfold bracketMismatch; infer_instance

/-- `urllib.parse.urlsplit`; `none` models a raised `ValueError`. -/
def urlsplit (url0 : List Char) : Option SplitResult :=
  let u1 := removeUnsafe (lstripControl url0)
  let sp := splitScheme u1
  let hasNetloc : Bool := decide (sp.2.take 2 = ['/', '/'])
  let netloc := if hasNetloc then (sp.2.drop 2).takeWhile notDelim else []
  let u3 := if hasNetloc then (sp.2.drop 2).dropWhile notDelim else sp.2
  if hasNetloc ∧ bracketMismatch netloc then none
  else
    let f := splitFirst '#' u3
    let q := splitFirst '?' f.1
    some ⟨sp.1, netloc, q.1, q.2, f.2⟩

/-- `urllib.parse.urlunsplit`. -/
def urlunsplit (p : SplitResult) : List Char :=
  let u0 := p.path
  let u1 :=
    if p.netloc ≠ [] ∨ u0.take 2 = ['/', '/'] then
      ['/', '/'] ++ p.netloc ++
        (if u0 ≠ [] ∧ u0.take 1 ≠ ['/'] then '/' :: u0 else u0)
    else u0
  let u2 := if p.scheme ≠ [] then p.scheme ++ ':' :: u1 else u1
  let u3 := if p.query ≠ [] then u2 ++ '?' :: p.query else u2
  if p.fragment ≠ [] then u3 ++ '#' :: p.fragment else u3

/-! ### `URLExtractor.normalize_url` -/

/-- The preprocessing performed by `normalize_url` before parsing:
`raw.strip()`, strip of the trailing-punctuation set, and prefixing
`http://` when the lowercased string starts with `www.`. -/
def preprocess (raw : List Char) : List Char :=
  let r1 := pyStrip raw
  let r2 := strip_trailing_punct r1
  if (r2.map Char.toLower).take 4 = "www.".toList then "http://".toList ++ r2
  else r2

/-- The accepted schemes `{"http", "https"}`. -/
def schemeOK (p : SplitResult) : Prop :=
  p.scheme = "http".toList ∨ p.scheme = "https".toList

instance (p : SplitResult) : Decidable (schemeOK p) := by
  unfold schemeOK; infer_instance

/-- `URLExtractor.normalize_url`. -/
def normalize_url (raw : List Char) : Option (List Char) :=
  match urlsplit (preprocess raw) with
  | none => none
  | some p =>
      if ¬ schemeOK p then none
      else if p.netloc = [] then none
      else some (urlunsplit { p with fragment := [] })

/-! ### Configuration (`Config`)

The values are environment-sourced at process start; they enter the model as
an immutable record.  `REQUEST_TIMEOUT_S` only reaches the claims through the
interpolated timeout message, so the record carries its decimal rendering. -/

structure Config where
  timeoutRepr : List Char
  concurrency : Nat
  maxUrls : Nat
  maxPdfSizeMB : ℚ

/-! ### `URLExtractor.extract_pdf_urls`

A PDF document enters the model as the list of its pages, via the PyMuPDF
capability the code uses: per page, the URL-token regex matches found in the
page text (`none` models the swallowed exception of the first `try` block) and
the `uri` entries of the link records (`none` models the swallowed exception
of the second `try` block; an individual `uri` is `none` when the record has
no target and `some []` when it is the empty string, both falsy in Python). -/

structure Page where
  textMatches : Option (List (List Char))
  links : Option (List (Option (List Char)))

/-- Addition to the accumulated Python `set`, keeping first-insertion order. -/
def insertNew (acc : List (List Char)) (u : List Char) : List (List Char) :=
  if u ∈ acc then acc else acc ++ [u]

/-- `norm = cls.normalize_url(m); if norm: urls.add(norm)` — an accepted
canonical URL is never the empty string (it starts with its scheme), so the
truthiness test is just the `None` test. -/
def addNormalized (acc : List (List Char)) (raw : List Char) : List (List Char) :=
  match normalize_url raw with
  | some n => insertNew acc n
  | none => acc

/-- One iteration of `for page in doc`. -/
def collectPage (acc : List (List Char)) (p : Page) : List (List Char) :=
  let acc1 := (p.textMatches.getD []).foldl addNormalized acc
  (p.links.getD []).foldl
    (fun a uri =>
      match uri with
      | some [] => a
      | some u => addNormalized a u
      | none => a)
    acc1

/-- The accumulated set of canonical URLs of the whole document, in
first-insertion order.  (Python iterates a `set`; any other enumeration order
is a permutation of this one and is absorbed by the shuffle hypothesis.) -/
def collect_urls (doc : List Page) : List (List Char) :=
  doc.foldl collectPage []

/-- `URLExtractor.extract_pdf_urls`: `random.shuffle` is modelled by the
function parameter `shuffle`, constrained in the theorems to produce a
permutation of its argument. -/
def extract_pdf_urls (doc : List Page) (maxUrls : Nat)
    (shuffle : List (List Char) → List (List Char)) : List (List Char) :=
  (shuffle (collect_urls doc)).take maxUrls

/-- A canonical URL is discovered in the document: some regex match of some
page's text, or some truthy link target of some page, normalizes to it. -/
def pageFound (p : Page) (u : List Char) : Prop :=
  (∃ m ∈ p.textMatches.getD [], normalize_url m = some u) ∨
  (∃ uri, some uri ∈ p.links.getD [] ∧ uri ≠ [] ∧ normalize_url uri = some u)

/-- `u` is among the normalized URLs found anywhere in the document. -/
def foundIn (doc : List Page) (u : List Char) : Prop :=
  ∃ p ∈ doc, pageFound p u

/-! ### `ContentScraper.fetch_html`

The transport is a parameter: attempt `n` against the URL produces
`transport n`.  The code performs exactly one `client.get`, hence consults
attempt `0` only; the no-retry clause is the statement that the result
depends on `transport 0` alone. -/

inductive FetchOutcome where
  | timeout
  | invalidURL
  | requestError (ename emsg : List Char)
  | response (status : Nat) (contentType : Option (List Char)) (body : List Char)
deriving DecidableEq, Repr

/-- `f"timeout after {Config.REQUEST_TIMEOUT_S}s"`. -/
def timeoutMsg (cfg : Config) : List Char :=
  "timeout after ".toList ++ cfg.timeoutRepr ++ "s".toList

/-- `"invalid URL"`. -/
def invalidURLMsg : List Char := "invalid URL".toList

/-- `f"request error: {e.__class__.__name__}: {e}"`. -/
def requestErrorMsg (ename emsg : List Char) : List Char :=
  "request error: ".toList ++ ename ++ ": ".toList ++ emsg

/-- `f"http {resp.status_code}"`. -/
def httpStatusMsg (status : Nat) : List Char :=
  "http ".toList ++ (Nat.repr status).toList

/-- `f"unsupported content-type: {ctype or 'unknown'}"` (`ctype` is already
lowercased). -/
def unsupportedCtypeMsg (ctype : List Char) : List Char :=
  "unsupported content-type: ".toList ++ (if ctype = [] then "unknown".toList else ctype)

/-- `ContentScraper.fetch_html`: returns `(markup?, failure?)`. -/
def fetch_html (cfg : Config) (transport : Nat → FetchOutcome) :
    Option (List Char) × Option (List Char) :=
  match transport 0 with
  | .timeout => (none, some (timeoutMsg cfg))
  | .invalidURL => (none, some invalidURLMsg)
  | .requestError n m => (none, some (requestErrorMsg n m))
  | .response status ct body =>
      let ctype := (ct.getD []).map Char.toLower
      if 400 ≤ status then (none, some (httpStatusMsg status))
      else if !hasSub "text/html".toList ctype && !hasSub "application/xhtml+xml".toList ctype then
        (none, some (unsupportedCtypeMsg ctype))
      else (some body, none)

/-! ### `ContentScraper.extract_main_text`

`trafilatura.extract` and the readability fallback are collaborators; each
strategy either raises (the swallowed `except`) or returns an optional
string.  `HAS_READABILITY` is the import-time capability flag. -/

inductive ExtractStep where
  | raises
  | returns (txt : Option (List Char))
deriving DecidableEq, Repr

/-- `re.sub(r"\s{3,}", "\n\n", s)`: every maximal run of at least three
whitespace characters becomes one double line break. -/
def collapseWs : List Char → List Char
  | [] => []
  | c :: t =>
      if pyWs c then
        let run := t.takeWhile pyWs
        let rest := t.dropWhile pyWs
        if 2 ≤ run.length then '\n' :: '\n' :: collapseWs rest
        else (c :: run) ++ collapseWs rest
      else c :: collapseWs t
termination_by s => s.length
decreasing_by
  all_goals first
    | exact Nat.lt_succ_of_le (List.Sublist.length_le (t.dropWhile_sublist pyWs))
    | exact Nat.lt_succ_of_le (Nat.le_refl _)

/-- The post-processing applied to a truthy strategy output:
`re.sub(r"\s{3,}", "\n\n", txt.strip())`. -/
def postprocessText (t : List Char) : List Char := collapseWs (pyStrip t)

/-- One `try` block of `extract_main_text`: `none` when the strategy raised or
its output was falsy, otherwise the post-processed text (which the code
returns immediately). -/
def tryExtractStep : ExtractStep → Option (List Char)
  | .raises => none
  | .returns none => none
  | .returns (some t) => if t = [] then none else some (postprocessText t)

/-- `ContentScraper.extract_main_text`. -/
def extract_main_text (primary : ExtractStep) (hasReadability : Bool)
    (secondary : ExtractStep) : Option (List Char) :=
  match tryExtractStep primary with
  | some r => some r
  | none => if hasReadability then tryExtractStep secondary else none

/-! ### `ScraperService` -/

inductive Status where
  | success
  | error
deriving DecidableEq, Repr

/-- The `ScrapeItem` pydantic model; omitted optional fields default to
`None`. -/
structure ScrapeItem where
  source_url : List Char
  status : Status
  scraped_text : Option (List Char) := none
  error_message : Option (List Char) := none
deriving DecidableEq, Repr

/-- An exception value: its class name and its `str()`. -/
structure ExnInfo where
  ename : List Char
  emsg : List Char
deriving DecidableEq, Repr

/-- The behaviour of the external world during one run: the transport per URL
and attempt, the two extraction strategies keyed by the markup they are given,
the readability capability flag, and an optional unexpected in-task fault per
URL (the exceptions `asyncio.gather(..., return_exceptions=True)` captures). -/
structure WorkerEnv where
  transport : List Char → Nat → FetchOutcome
  primary : List Char → ExtractStep
  hasReadability : Bool
  secondary : List Char → ExtractStep
  fault : List Char → Option ExnInfo

/-- Python truthiness of an optional string. -/
def truthyStr : Option (List Char) → Bool
  | some (_ :: _) => true
  | _ => false

/-- The body of `worker` (between semaphore acquisition and return). -/
def run_worker_item (cfg : Config) (env : WorkerEnv) (url : List Char) : ScrapeItem :=
  let fr := fetch_html cfg (env.transport url)
  if truthyStr fr.2 then
    { source_url := url, status := .error, error_message := fr.2 }
  else
    let h := fr.1.getD []
    let text := extract_main_text (env.primary h) env.hasReadability (env.secondary h)
    if truthyStr text then
      { source_url := url, status := .success, scraped_text := text }
    else
      { source_url := url, status := .error,
        error_message := some "no main content extracted".toList }

/-- The outcome of one task as seen by `asyncio.gather` with
`return_exceptions=True`: the returned item, or the captured exception. -/
inductive TaskResult where
  | ok (item : ScrapeItem)
  | exn (e : ExnInfo)
deriving DecidableEq, Repr

/-- One task of `scrape_urls`: an injected fault makes the coroutine raise,
otherwise it returns the worker's item. -/
def run_worker (cfg : Config) (env : WorkerEnv) (url : List Char) : TaskResult :=
  match env.fault url with
  | some e => .exn e
  | none => .ok (run_worker_item cfg env url)

/-- `f"internal error: {res.__class__.__name__}: {res}"`. -/
def internalErrorMsg (e : ExnInfo) : List Char :=
  "internal error: ".toList ++ e.ename ++ ": ".toList ++ e.emsg

/-- The loop body over `zip(results, urls)`. -/
def collectItem (url : List Char) : TaskResult → ScrapeItem
  | .exn e => { source_url := url, status := .error,
                error_message := some (internalErrorMsg e) }
  | .ok item => item

/-- `ScraperService.scrape_urls`: `asyncio.gather` delivers the task results
in the order of the task list it was given (completion order is studied
separately through `gatherFromCompletion`). -/
def scrape_urls (cfg : Config) (env : WorkerEnv) (urls : List (List Char)) :
    List ScrapeItem :=
  let results := urls.map (run_worker cfg env)
  (results.zip urls).map fun ru => collectItem ru.2 ru.1

/-- Tag each task result with its index, starting at `k`. -/
def indexTasks (k : Nat) : List TaskResult → List (Nat × TaskResult)
  | [] => []
  | r :: t => (k, r) :: indexTasks (k + 1) t

/-- Look up the result of task `i` in a completion log. -/
def lookupIdx (i : Nat) : List (Nat × TaskResult) → Option TaskResult
  | [] => none
  | (j, r) :: t => if j = i then some r else lookupIdx i t

/-- What `asyncio.gather` does with an arbitrary completion order: slot `i` of
its output is the result of task `i`, regardless of the order in which the
`(index, result)` pairs were produced. -/
def gatherFromCompletion (n : Nat) (completed : List (Nat × TaskResult)) :
    List (Option TaskResult) :=
  (List.range n).map fun i => lookupIdx i completed

/-! ### The orchestrator's concurrency structure

Each `worker` coroutine passes through: the startup delay
(`asyncio.sleep`), then blocking on `self.sem`, then — holding a slot —
the fetch/extract work, then slot release at the end of `async with`.
The cooperative scheduler is modelled as a step relation. -/

inductive TaskPhase where
  | initial
  | waiting
  | working
  | done
deriving DecidableEq, Repr

/-- Scheduler state: the phase of every task and the semaphore's free count. -/
structure SchedState where
  phases : List TaskPhase
  avail : Nat
deriving DecidableEq, Repr

/-- One cooperative suspension-point transition of some task. -/
inductive SchedStep : SchedState → SchedState → Prop
  | finishDelay (s : SchedState) (i : Nat) :
      s.phases[i]? = some .initial →
      SchedStep s { s with phases := s.phases.set i .waiting }
  | acquire (s : SchedState) (i : Nat) :
      s.phases[i]? = some .waiting → 0 < s.avail →
      SchedStep s { phases := s.phases.set i .working, avail := s.avail - 1 }
  | release (s : SchedState) (i : Nat) :
      s.phases[i]? = some .working →
      SchedStep s { phases := s.phases.set i .done, avail := s.avail + 1 }

/-- Run start: `n` tasks before their startup delay, the semaphore at its
full capacity `Config.CONCURRENCY`. -/
def initState (n cap : Nat) : SchedState :=
  { phases := List.replicate n .initial, avail := cap }

/-- Reachability from the run's initial state. -/
inductive SchedReach (n cap : Nat) : SchedState → Prop
  | init : SchedReach n cap (initState n cap)
  | step {s t : SchedState} : SchedReach n cap s → SchedStep s t → SchedReach n cap t

/-- Number of tasks currently inside their fetch/extract work. -/
def workingCount (s : SchedState) : Nat :=
  s.phases.countP (fun ph => ph = .working)

/-! ### The upload boundary (`scrape_resume_links`)

`len(content) / (1024 * 1024)` is an IEEE-754 division of an exact integer
(every realistic byte count is below `2^53`) by a power of two, hence exact,
and `float(os.getenv(...))` is some exactly represented value; the comparison
is therefore the comparison of the corresponding rationals. -/

def size_mb (nbytes : Nat) : ℚ := (nbytes : ℚ) / (1024 * 1024)

inductive UploadGate where
  | rejected413
  | proceed
deriving DecidableEq, Repr

/-- The size check of `scrape_resume_links`: `if size_mb > Config.MAX_PDF_SIZE_MB`. -/
def scrape_resume_links_gate (cfg : Config) (nbytes : Nat) : UploadGate :=
  if cfg.maxPdfSizeMB < size_mb nbytes then .rejected413 else .proceed

/-! ## Generic list lemmas -/

theorem ne_of_head? {a b : List Char} {c1 c2 : Char}
    (ha : a.head? = some c1) (hb : b.head? = some c2) (h : c1 ≠ c2) : a ≠ b := by
  intro he
  rw [he, hb] at ha
  exact h (Option.some.inj ha).symm

theorem takeWhile_append_all {p : Char → Bool} :
    ∀ {l t : List Char}, (∀ c ∈ l, p c = true) →
      (l ++ t).takeWhile p = l ++ t.takeWhile p
  | [], _, _ => by simp
  | c :: l, t, h => by
    have hc : p c = true := h c (List.mem_cons_self c l)
    simp only [List.cons_append, List.takeWhile_cons_of_pos hc]
    rw [takeWhile_append_all fun x hx => h x (List.mem_cons_of_mem c hx)]

theorem dropWhile_append_all {p : Char → Bool} :
    ∀ {l t : List Char}, (∀ c ∈ l, p c = true) →
      (l ++ t).dropWhile p = t.dropWhile p
  | [], _, _ => by simp
  | c :: l, t, h => by
    have hc : p c = true := h c (List.mem_cons_self c l)
    simp only [List.cons_append, List.dropWhile_cons_of_pos hc]
    exact dropWhile_append_all fun x hx => h x (List.mem_cons_of_mem c hx)

theorem takeWhile_append_stop {p : Char → Bool} {l : List Char} {c : Char} {t : List Char}
    (hl : ∀ x ∈ l, p x = true) (hc : p c = false) :
    (l ++ c :: t).takeWhile p = l ∧ (l ++ c :: t).dropWhile p = c :: t := by
  constructor
  · rw [takeWhile_append_all hl, List.takeWhile_cons_of_neg (by simp [hc]), List.append_nil]
  · rw [dropWhile_append_all hl, List.dropWhile_cons_of_neg (by simp [hc])]

theorem takeWhile_eq_self {p : Char → Bool} {l : List Char}
    (hl : ∀ x ∈ l, p x = true) : l.takeWhile p = l := by
  have h := @takeWhile_append_all p l [] hl
  simpa using h

theorem dropWhile_eq_nil {p : Char → Bool} {l : List Char}
    (hl : ∀ x ∈ l, p x = true) : l.dropWhile p = [] := by
  have h := @dropWhile_append_all p l [] hl
  simpa using h

/-- A `dropWhile` result is empty or starts with a character failing `p`. -/
theorem dropWhile_head_neg (p : Char → Bool) :
    ∀ l : List Char, l.dropWhile p = [] ∨
      ∃ c t, l.dropWhile p = c :: t ∧ p c = false
  | [] => .inl rfl
  | c :: l => by
    by_cases hc : p c
    · rw [List.dropWhile_cons_of_pos hc]
      exact dropWhile_head_neg p l
    · rw [List.dropWhile_cons_of_neg hc]
      exact .inr ⟨c, l, rfl, by simpa using hc⟩

/-! ## C10: the upload size gate -/

/-- C10: the 413 too-large rejection uses a strict comparison: a document
whose size in MB equals `Config.MAX_PDF_SIZE_MB` exactly is accepted and
proceeds to parsing; only strictly larger documents are rejected. -/
theorem size_gate_strict (cfg : Config) (nbytes : Nat) :
    (size_mb nbytes = cfg.maxPdfSizeMB → scrape_resume_links_gate cfg nbytes = .proceed) ∧
    (scrape_resume_links_gate cfg nbytes = .rejected413 ↔ cfg.maxPdfSizeMB < size_mb nbytes) := by
  constructor
  · intro h
    unfold scrape_resume_links_gate
    rw [h]
    simp
  · unfold scrape_resume_links_gate
    split <;> simp_all

/-- Witness for `size_gate_strict`: with the default 10 MB limit, a document
of exactly 10 · 2^20 bytes passes the gate and one more byte is rejected. -/
theorem size_gate_strict_witness :
    size_mb 10485760 = (Config.mk "12.0".toList 6 40 10).maxPdfSizeMB ∧
    scrape_resume_links_gate (Config.mk "12.0".toList 6 40 10) 10485760 = .proceed ∧
    scrape_resume_links_gate (Config.mk "12.0".toList 6 40 10) 10485761 = .rejected413 := by
  have h1 : size_mb 10485760 = (Config.mk "12.0".toList 6 40 10).maxPdfSizeMB := by
    norm_num [size_mb]
  refine ⟨h1, (size_gate_strict _ _).1 h1, (size_gate_strict _ _).2.mpr ?_⟩
  norm_num [size_mb]

/-! ## C5: the failure taxonomy of `fetch_html` -/

theorem timeoutMsg_head (cfg : Config) : (timeoutMsg cfg).head? = some 't' := rfl

theorem invalidURLMsg_head : invalidURLMsg.head? = some 'i' := rfl

theorem requestErrorMsg_head (n m : List Char) : (requestErrorMsg n m).head? = some 'r' := rfl

theorem httpStatusMsg_head (st : Nat) : (httpStatusMsg st).head? = some 'h' := rfl

theorem unsupportedCtypeMsg_head (ct : List Char) :
    (unsupportedCtypeMsg ct).head? = some 'u' := rfl

/-- C5: `fetch_html` fails, with no markup, in exactly the listed cases —
timeout, invalid URL, generic request error, `http <status>` for every
status ≥ 400, and unsupported content-type for a transport-successful
response that indicates neither HTML nor XHTML — each case carrying a
distinct message; in the remaining case it returns the body and no failure;
and the result depends only on the first (single) transport attempt. -/
theorem fetch_html_failure_taxonomy (cfg : Config) (transport : Nat → FetchOutcome) :
    (transport 0 = .timeout → fetch_html cfg transport = (none, some (timeoutMsg cfg))) ∧
    (transport 0 = .invalidURL → fetch_html cfg transport = (none, some invalidURLMsg)) ∧
    (∀ n m, transport 0 = .requestError n m →
        fetch_html cfg transport = (none, some (requestErrorMsg n m))) ∧
    (∀ st ct body, transport 0 = .response st ct body → 400 ≤ st →
        fetch_html cfg transport = (none, some (httpStatusMsg st))) ∧
    (∀ st ct body, transport 0 = .response st ct body → st < 400 →
        hasSub "text/html".toList ((ct.getD []).map Char.toLower) = false →
        hasSub "application/xhtml+xml".toList ((ct.getD []).map Char.toLower) = false →
        fetch_html cfg transport =
          (none, some (unsupportedCtypeMsg ((ct.getD []).map Char.toLower)))) ∧
    (∀ st ct body, transport 0 = .response st ct body → st < 400 →
        (hasSub "text/html".toList ((ct.getD []).map Char.toLower) = true ∨
         hasSub "application/xhtml+xml".toList ((ct.getD []).map Char.toLower) = true) →
        fetch_html cfg transport = (some body, none)) ∧
    (∀ n m st ct2,
        timeoutMsg cfg ≠ invalidURLMsg ∧
        timeoutMsg cfg ≠ requestErrorMsg n m ∧
        timeoutMsg cfg ≠ httpStatusMsg st ∧
        timeoutMsg cfg ≠ unsupportedCtypeMsg ct2 ∧
        invalidURLMsg ≠ requestErrorMsg n m ∧
        invalidURLMsg ≠ httpStatusMsg st ∧
        invalidURLMsg ≠ unsupportedCtypeMsg ct2 ∧
        requestErrorMsg n m ≠ httpStatusMsg st ∧
        requestErrorMsg n m ≠ unsupportedCtypeMsg ct2 ∧
        httpStatusMsg st ≠ unsupportedCtypeMsg ct2) ∧
    (∀ transport2 : Nat → FetchOutcome, transport 0 = transport2 0 →
        fetch_html cfg transport = fetch_html cfg transport2) := by
  refine ⟨?_, ?_, ?_, ?_, ?_, ?_, ?_, ?_⟩
  · intro h; unfold fetch_html; rw [h]
  · intro h; unfold fetch_html; rw [h]
  · intro n m h; unfold fetch_html; rw [h]
  · intro st ct body h h400
    unfold fetch_html
    rw [h]
    simp only [if_pos h400]
  · intro st ct body h h400 h1 h2
    unfold fetch_html
    rw [h]
    simp only [if_neg (by omega : ¬ 400 ≤ st), h1, h2]
    simp
  · intro st ct body h h400 hok
    unfold fetch_html
    rw [h]
    simp only [if_neg (by omega : ¬ 400 ≤ st)]
    have hcond : (!hasSub "text/html".toList ((ct.getD []).map Char.toLower) &&
        !hasSub "application/xhtml+xml".toList ((ct.getD []).map Char.toLower)) = false := by
      rcases hok with hok | hok <;> rw [hok] <;> simp
    rw [hcond]
    simp
  · intro n m st ct2
    refine ⟨?_, ?_, ?_, ?_, ?_, ?_, ?_, ?_, ?_, ?_⟩ <;>
      first
        | exact ne_of_head? (timeoutMsg_head cfg) invalidURLMsg_head (by decide)
        | exact ne_of_head? (timeoutMsg_head cfg) (requestErrorMsg_head n m) (by decide)
        | exact ne_of_head? (timeoutMsg_head cfg) (httpStatusMsg_head st) (by decide)
        | exact ne_of_head? (timeoutMsg_head cfg) (unsupportedCtypeMsg_head ct2) (by decide)
        | exact ne_of_head? invalidURLMsg_head (requestErrorMsg_head n m) (by decide)
        | exact ne_of_head? invalidURLMsg_head (httpStatusMsg_head st) (by decide)
        | exact ne_of_head? invalidURLMsg_head (unsupportedCtypeMsg_head ct2) (by decide)
        | exact ne_of_head? (requestErrorMsg_head n m) (httpStatusMsg_head st) (by decide)
        | exact ne_of_head? (requestErrorMsg_head n m) (unsupportedCtypeMsg_head ct2) (by decide)
        | exact ne_of_head? (httpStatusMsg_head st) (unsupportedCtypeMsg_head ct2) (by decide)
  · intro transport2 h
    unfold fetch_html
    rw [h]

/-- Witness for `fetch_html_failure_taxonomy` at a concrete transport: a 200
JSON response is rejected as unsupported content-type. -/
theorem fetch_html_failure_taxonomy_witness :
    fetch_html (Config.mk "12.0".toList 6 40 10)
        (fun _ => .response 200 (some "application/json".toList) "x".toList) =
      (none, some (unsupportedCtypeMsg "application/json".toList)) := by
  refine (fetch_html_failure_taxonomy (Config.mk "12.0".toList 6 40 10)
      (fun _ => .response 200 (some "application/json".toList) "x".toList)).2.2.2.2.1
    200 (some "application/json".toList) "x".toList rfl (by decide) (by decide) (by decide)

/-! ## Orchestrator helpers -/

/-- `zip(results, urls)` with `results = map worker urls` pairs each URL with
its own task result. -/
theorem scrape_urls_eq_map (cfg : Config) (env : WorkerEnv) (urls : List (List Char)) :
    scrape_urls cfg env urls =
      urls.map (fun u => collectItem u (run_worker cfg env u)) := by
  induction urls with
  | nil => rfl
  | cons u t ih =>
    simp only [scrape_urls, List.map_cons, List.zip_cons_cons] at ih ⊢
    rw [ih]

theorem scrape_urls_getElem? (cfg : Config) (env : WorkerEnv)
    (urls : List (List Char)) (i : Nat) :
    (scrape_urls cfg env urls)[i]? =
      (urls[i]?).map (fun u => collectItem u (run_worker cfg env u)) := by
  rw [scrape_urls_eq_map]
  exact List.getElem?_map _ _ _

theorem truthyStr_eq_true {o : Option (List Char)} (h : truthyStr o = true) :
    ∃ c t, o = some (c :: t) := by
  cases o with
  | none => cases h
  | some l =>
    cases l with
    | nil => cases h
    | cons c t => exact ⟨c, t, rfl⟩

theorem run_worker_item_fetch_err (cfg : Config) (env : WorkerEnv) (url : List Char)
    (h : truthyStr (fetch_html cfg (env.transport url)).2 = true) :
    run_worker_item cfg env url =
      { source_url := url, status := .error,
        error_message := (fetch_html cfg (env.transport url)).2 } := by
  simp only [run_worker_item]
  rw [if_pos h]

theorem run_worker_item_no_text (cfg : Config) (env : WorkerEnv) (url : List Char)
    (h : truthyStr (fetch_html cfg (env.transport url)).2 = false)
    (h2 : truthyStr (extract_main_text
        (env.primary ((fetch_html cfg (env.transport url)).1.getD []))
        env.hasReadability
        (env.secondary ((fetch_html cfg (env.transport url)).1.getD []))) = false) :
    run_worker_item cfg env url =
      { source_url := url, status := .error,
        error_message := some "no main content extracted".toList } := by
  simp only [run_worker_item]
  rw [if_neg (by simp [h]), if_neg (by simp [h2])]

theorem run_worker_item_success (cfg : Config) (env : WorkerEnv) (url : List Char)
    (h : truthyStr (fetch_html cfg (env.transport url)).2 = false)
    (h2 : truthyStr (extract_main_text
        (env.primary ((fetch_html cfg (env.transport url)).1.getD []))
        env.hasReadability
        (env.secondary ((fetch_html cfg (env.transport url)).1.getD []))) = true) :
    run_worker_item cfg env url =
      { source_url := url, status := .success,
        scraped_text := extract_main_text
          (env.primary ((fetch_html cfg (env.transport url)).1.getD []))
          env.hasReadability
          (env.secondary ((fetch_html cfg (env.transport url)).1.getD [])) } := by
  simp only [run_worker_item]
  rw [if_neg (by simp [h]), if_pos h2]

theorem collectItem_success_text (cfg : Config) (env : WorkerEnv) (u : List Char) :
    (collectItem u (run_worker cfg env u)).status = .success →
    ∃ t, (collectItem u (run_worker cfg env u)).scraped_text = some t ∧ t ≠ [] := by
  unfold run_worker
  cases hf : env.fault u with
  | some e => intro h; exact absurd h (by simp [collectItem])
  | none =>
    simp only [collectItem]
    by_cases h1 : truthyStr (fetch_html cfg (env.transport u)).2 = true
    · rw [run_worker_item_fetch_err cfg env u h1]
      intro h; exact absurd h (by simp)
    · have h1f : truthyStr (fetch_html cfg (env.transport u)).2 = false := by
        simpa using h1
      by_cases h2 : truthyStr (extract_main_text
          (env.primary ((fetch_html cfg (env.transport u)).1.getD []))
          env.hasReadability
          (env.secondary ((fetch_html cfg (env.transport u)).1.getD []))) = true
      · rw [run_worker_item_success cfg env u h1f h2]
        intro _
        rcases truthyStr_eq_true h2 with ⟨c, tl, heq⟩
        exact ⟨c :: tl, by simp [heq], by simp⟩
      · rw [run_worker_item_no_text cfg env u h1f (by simpa using h2)]
        intro h; exact absurd h (by simp)

/-! ## C6: the extraction fallback chain -/

theorem tryExtractStep_eq_none {e : ExtractStep} :
    tryExtractStep e = none ↔
      (e = .raises ∨ e = .returns none ∨ e = .returns (some [])) := by
  cases e with
  | raises => simp [tryExtractStep]
  | returns t =>
    cases t with
    | none => simp [tryExtractStep]
    | some l =>
      cases l with
      | nil => simp [tryExtractStep]
      | cons c t => simp [tryExtractStep]

/-- C6: when the primary strategy raises or yields falsy output,
`extract_main_text` falls through to the secondary strategy exactly when the
readability library is available; it yields no text precisely when the
primary fails and the secondary is unavailable or fails too; the worker maps
a no-text extraction to an `error` item with message
`no main content extracted`; and no `success` item ever carries empty (or
absent) scraped text. -/
theorem extract_main_text_fallback (p : ExtractStep) (hasR : Bool) (s : ExtractStep) :
    ((p = .raises ∨ p = .returns none ∨ p = .returns (some [])) →
        extract_main_text p hasR s = if hasR then tryExtractStep s else none) ∧
    (extract_main_text p hasR s = none ↔
        (p = .raises ∨ p = .returns none ∨ p = .returns (some [])) ∧
        (hasR = false ∨ s = .raises ∨ s = .returns none ∨ s = .returns (some []))) ∧
    (∀ (cfg : Config) (env : WorkerEnv) (url : List Char),
        truthyStr (fetch_html cfg (env.transport url)).2 = false →
        extract_main_text
            (env.primary ((fetch_html cfg (env.transport url)).1.getD []))
            env.hasReadability
            (env.secondary ((fetch_html cfg (env.transport url)).1.getD [])) = none →
        run_worker_item cfg env url =
          { source_url := url, status := .error,
            error_message := some "no main content extracted".toList }) ∧
    (∀ (cfg : Config) (env : WorkerEnv) (urls : List (List Char)) (item : ScrapeItem),
        item ∈ scrape_urls cfg env urls → item.status = .success →
        ∃ t, item.scraped_text = some t ∧ t ≠ []) := by
  refine ⟨?_, ?_, ?_, ?_⟩
  · intro hbad
    have h0 : tryExtractStep p = none := tryExtractStep_eq_none.mpr hbad
    unfold extract_main_text
    rw [h0]
  · unfold extract_main_text
    cases hp : tryExtractStep p with
    | some r =>
      constructor
      · intro h; cases h
      · rintro ⟨hbad, -⟩
        rw [tryExtractStep_eq_none.mpr hbad] at hp
        cases hp
    | none =>
      have hpbad := tryExtractStep_eq_none.mp hp
      cases hasR with
      | false => simp [hpbad]
      | true => simp [hpbad, tryExtractStep_eq_none]
  · intro cfg env url hfetch hempty
    exact run_worker_item_no_text cfg env url hfetch (by rw [hempty]; rfl)
  · intro cfg env urls item hmem hsucc
    rw [scrape_urls_eq_map] at hmem
    rcases List.mem_map.mp hmem with ⟨u, -, rfl⟩
    exact collectItem_success_text cfg env u hsucc

/-- Witness for `extract_main_text_fallback`: with the primary raising and no
readability library, extraction yields no text. -/
theorem extract_main_text_fallback_witness :
    extract_main_text .raises false .raises = none :=
  (extract_main_text_fallback .raises false .raises).2.1.mpr ⟨Or.inl rfl, Or.inl rfl⟩

/-! ## C4: the per-item field invariant -/

theorem collectItem_wf (cfg : Config) (env : WorkerEnv) (u : List Char) :
    ((collectItem u (run_worker cfg env u)).status = .success ↔
        (collectItem u (run_worker cfg env u)).scraped_text ≠ none) ∧
    ((collectItem u (run_worker cfg env u)).status = .error ↔
        (collectItem u (run_worker cfg env u)).error_message ≠ none) ∧
    (((collectItem u (run_worker cfg env u)).scraped_text ≠ none ∧
        (collectItem u (run_worker cfg env u)).error_message = none) ∨
     ((collectItem u (run_worker cfg env u)).scraped_text = none ∧
        (collectItem u (run_worker cfg env u)).error_message ≠ none)) := by
  unfold run_worker
  cases hf : env.fault u with
  | some e => simp [collectItem]
  | none =>
    simp only [collectItem]
    by_cases h1 : truthyStr (fetch_html cfg (env.transport u)).2 = true
    · rw [run_worker_item_fetch_err cfg env u h1]
      rcases truthyStr_eq_true h1 with ⟨c, t, heq⟩
      simp [heq]
    · have h1f : truthyStr (fetch_html cfg (env.transport u)).2 = false := by
        simpa using h1
      by_cases h2 : truthyStr (extract_main_text
          (env.primary ((fetch_html cfg (env.transport u)).1.getD []))
          env.hasReadability
          (env.secondary ((fetch_html cfg (env.transport u)).1.getD []))) = true
      · rw [run_worker_item_success cfg env u h1f h2]
        rcases truthyStr_eq_true h2 with ⟨c, t, heq⟩
        simp [heq]
      · rw [run_worker_item_no_text cfg env u h1f (by simpa using h2)]
        simp

/-- C4: every `ScrapeItem` the orchestrator produces populates exactly one of
`scraped_text` / `error_message`, and which one is determined by `status`:
`success` iff the text is present, `error` iff the message is present. -/
theorem scrape_item_exclusive_fields (cfg : Config) (env : WorkerEnv)
    (urls : List (List Char)) (item : ScrapeItem)
    (h : item ∈ scrape_urls cfg env urls) :
    (item.status = .success ↔ item.scraped_text ≠ none) ∧
    (item.status = .error ↔ item.error_message ≠ none) ∧
    ((item.scraped_text ≠ none ∧ item.error_message = none) ∨
     (item.scraped_text = none ∧ item.error_message ≠ none)) := by
  rw [scrape_urls_eq_map] at h
  rcases List.mem_map.mp h with ⟨u, -, rfl⟩
  exact collectItem_wf cfg env u

/-- A fixed configuration used by concrete witnesses (the defaults of
`Config`). -/
def cfgD : Config := ⟨"12.0".toList, 6, 40, 10⟩

/-- A concrete environment in which every fetch times out. -/
def envTimeout : WorkerEnv :=
  { transport := fun _ _ => .timeout,
    primary := fun _ => .raises,
    hasReadability := false,
    secondary := fun _ => .raises,
    fault := fun _ => none }

/-- The single item produced for one URL in the all-timeouts environment. -/
def itemTimeoutW : ScrapeItem :=
  { source_url := "http://x.com".toList, status := .error,
      error_message := some (timeoutMsg cfgD) }

/-- Witness for `scrape_item_exclusive_fields`: the item produced for one URL
in the all-timeouts environment satisfies the invariant. -/
theorem scrape_item_exclusive_fields_witness :
    (itemTimeoutW.status = .success ↔ itemTimeoutW.scraped_text ≠ none) ∧
    (itemTimeoutW.status = .error ↔ itemTimeoutW.error_message ≠ none) ∧
    ((itemTimeoutW.scraped_text ≠ none ∧ itemTimeoutW.error_message = none) ∨
     (itemTimeoutW.scraped_text = none ∧ itemTimeoutW.error_message ≠ none)) :=
  scrape_item_exclusive_fields cfgD envTimeout ["http://x.com".toList] itemTimeoutW
    (by decide)

/-! ## C2: failure isolation and the fixed-shape response -/

/-- C2: the orchestrator returns exactly one item per URL; an exception
captured from task `i` is converted into an `error` item for URL `i` with
the generic internal-error message; and item `i` depends only on task `i`'s
own outcome, so a sibling task's failure cannot affect it. -/
theorem scrape_urls_failure_isolation (cfg : Config) (env : WorkerEnv)
    (urls : List (List Char)) :
    (scrape_urls cfg env urls).length = urls.length ∧
    (∀ (i : Nat) (url : List Char) (e : ExnInfo), urls[i]? = some url → env.fault url = some e →
        (scrape_urls cfg env urls)[i]? =
          some { source_url := url, status := .error,
                 error_message := some (internalErrorMsg e) }) ∧
    (∀ (env2 : WorkerEnv) (i : Nat) (url : List Char), urls[i]? = some url →
        run_worker cfg env url = run_worker cfg env2 url →
        (scrape_urls cfg env urls)[i]? = (scrape_urls cfg env2 urls)[i]?) := by
  refine ⟨?_, ?_, ?_⟩
  · rw [scrape_urls_eq_map]
    simp
  · intro i url e hu hf
    rw [scrape_urls_getElem?, hu]
    simp only [Option.map_some']
    unfold run_worker
    rw [hf]
    rfl
  · intro env2 i url hu hr
    rw [scrape_urls_getElem?, scrape_urls_getElem?, hu]
    simp only [Option.map_some']
    rw [hr]

/-! ## C1: result ordering is the input ordering -/

theorem lookupIdx_perm {l1 l2 : List (Nat × TaskResult)} (h : l1.Perm l2)
    (nd : (l2.map Prod.fst).Nodup) (i : Nat) :
    lookupIdx i l1 = lookupIdx i l2 := by
  induction h with
  | nil => rfl
  | @cons x t1 t2 _ ih =>
    obtain ⟨j, r⟩ := x
    have nd' : (t2.map Prod.fst).Nodup := by
      rw [List.map_cons, List.nodup_cons] at nd
      exact nd.2
    simp only [lookupIdx]
    rw [ih nd']
  | @swap x y t =>
    obtain ⟨jx, rx⟩ := x
    obtain ⟨jy, ry⟩ := y
    have hne : jx ≠ jy := by
      simp only [List.map_cons, List.nodup_cons, List.mem_cons] at nd
      exact fun he => nd.1 (Or.inl he)
    simp only [lookupIdx]
    split_ifs with h1 h2 <;> try rfl
    exact absurd (h2.trans h1.symm) hne
  | @trans t1 t2 t3 h12 h23 ih12 ih23 =>
    have nd2 : (t2.map Prod.fst).Nodup :=
      ((h23.map Prod.fst).nodup_iff).mpr nd
    rw [ih12 nd2, ih23 nd]

theorem lookupIdx_indexTasks : ∀ (l : List TaskResult) (k i : Nat),
    lookupIdx (k + i) (indexTasks k l) = l[i]?
  | [], k, i => by simp [indexTasks, lookupIdx]
  | r :: t, k, 0 => by simp [indexTasks, lookupIdx]
  | r :: t, k, i + 1 => by
    simp only [indexTasks, lookupIdx]
    rw [if_neg (by omega)]
    have he : k + (i + 1) = (k + 1) + i := by omega
    rw [he, lookupIdx_indexTasks t (k + 1) i]
    simp

theorem indexTasks_keys_ge : ∀ (l : List TaskResult) (k : Nat) (x : Nat × TaskResult),
    x ∈ indexTasks k l → k ≤ x.1
  | [], _, _, h => by cases h
  | r :: t, k, x, h => by
    simp only [indexTasks, List.mem_cons] at h
    rcases h with rfl | h
    · exact Nat.le_refl k
    · exact Nat.le_trans (Nat.le_succ k) (indexTasks_keys_ge t (k + 1) x h)

theorem indexTasks_keys_nodup : ∀ (l : List TaskResult) (k : Nat),
    ((indexTasks k l).map Prod.fst).Nodup
  | [], _ => List.nodup_nil
  | r :: t, k => by
    simp only [indexTasks, List.map_cons]
    rw [List.nodup_cons]
    refine ⟨?_, indexTasks_keys_nodup t (k + 1)⟩
    intro hmem
    rcases List.mem_map.mp hmem with ⟨x, hx, hfst⟩
    have := indexTasks_keys_ge t (k + 1) x hx
    omega

theorem range_map_getElem? : ∀ (l : List TaskResult),
    (List.range l.length).map (fun i => l[i]?) = l.map some
  | [] => rfl
  | r :: t => by
    simp only [List.length_cons, List.range_succ_eq_map, List.map_cons, List.map_map]
    refine congrArg₂ (· :: ·) (by simp) ?_
    rw [← range_map_getElem? t]
    exact List.map_congr_left fun i _ => by simp [Function.comp]

theorem collectItem_source (cfg : Config) (env : WorkerEnv) (u : List Char) :
    (collectItem u (run_worker cfg env u)).source_url = u := by
  unfold run_worker
  cases hf : env.fault u with
  | some e => rfl
  | none =>
    simp only [collectItem]
    by_cases h1 : truthyStr (fetch_html cfg (env.transport u)).2 = true
    · rw [run_worker_item_fetch_err cfg env u h1]
    · have h1f : truthyStr (fetch_html cfg (env.transport u)).2 = false := by
        simpa using h1
      by_cases h2 : truthyStr (extract_main_text
          (env.primary ((fetch_html cfg (env.transport u)).1.getD []))
          env.hasReadability
          (env.secondary ((fetch_html cfg (env.transport u)).1.getD []))) = true
      · rw [run_worker_item_success cfg env u h1f h2]
      · rw [run_worker_item_no_text cfg env u h1f (by simpa using h2)]

/-- C1: whatever order the tasks complete in, `gather` reassembles the task
results in task order, so `scrape_urls` returns one item per input URL with
the `i`-th item's `source_url` equal to the `i`-th input URL. -/
theorem scrape_urls_order_preserving (cfg : Config) (env : WorkerEnv)
    (urls : List (List Char)) (completed : List (Nat × TaskResult))
    (hperm : completed.Perm (indexTasks 0 (urls.map (run_worker cfg env)))) :
    gatherFromCompletion urls.length completed =
      (urls.map (run_worker cfg env)).map some ∧
    (scrape_urls cfg env urls).length = urls.length ∧
    (∀ (i : Nat) (h1 : i < (scrape_urls cfg env urls).length) (h2 : i < urls.length),
      ((scrape_urls cfg env urls).get ⟨i, h1⟩).source_url = urls.get ⟨i, h2⟩) := by
  refine ⟨?_, ?_, ?_⟩
  · unfold gatherFromCompletion
    have hlen : urls.length = (urls.map (run_worker cfg env)).length := by simp
    rw [hlen]
    have step1 : ∀ i, lookupIdx i completed =
        (urls.map (run_worker cfg env))[i]? := by
      intro i
      rw [lookupIdx_perm hperm (indexTasks_keys_nodup _ 0) i]
      have := lookupIdx_indexTasks (urls.map (run_worker cfg env)) 0 i
      rwa [Nat.zero_add] at this
    rw [List.map_congr_left fun i _ => step1 i]
    exact range_map_getElem? _
  · rw [scrape_urls_eq_map]
    simp
  · intro i h1 h2
    have hq := scrape_urls_getElem? cfg env urls i
    rw [List.getElem?_eq_getElem h2] at hq
    simp only [Option.map_some'] at hq
    have key : (scrape_urls cfg env urls)[i] =
        collectItem (urls[i]) (run_worker cfg env (urls[i])) := by
      have hg := List.getElem?_eq_getElem h1
      rw [hq] at hg
      exact (Option.some.inj hg).symm
    have goal2 : ((scrape_urls cfg env urls)[i]).source_url = urls[i] := by
      rw [key]
      exact collectItem_source cfg env _
    exact goal2

/-- Witness for `scrape_urls_order_preserving`: a two-URL run whose
completion log lists task 1 before task 0 still reports the items in input
order. -/
theorem scrape_urls_order_preserving_witness :
    gatherFromCompletion 2 [(1, run_worker cfgD envTimeout "http://b.com".toList),
        (0, run_worker cfgD envTimeout "http://a.com".toList)] =
      (["http://a.com".toList, "http://b.com".toList].map
          (run_worker cfgD envTimeout)).map some ∧
    (scrape_urls cfgD envTimeout
        ["http://a.com".toList, "http://b.com".toList]).length = 2 :=
  have h := scrape_urls_order_preserving cfgD envTimeout
    ["http://a.com".toList, "http://b.com".toList]
    [(1, run_worker cfgD envTimeout "http://b.com".toList),
     (0, run_worker cfgD envTimeout "http://a.com".toList)]
    (List.Perm.swap _ _ _)
  ⟨h.1, h.2.1⟩

/-- A concrete environment in which every task raises an unexpected fault. -/
def envFault : WorkerEnv :=
  { transport := fun _ _ => .timeout,
    primary := fun _ => .raises,
    hasReadability := false,
    secondary := fun _ => .raises,
    fault := fun _ => some ⟨"ValueError".toList, "boom".toList⟩ }

/-- Witness for `scrape_urls_failure_isolation`: with one URL whose task
faults, the run still yields exactly one item, an `error` with the internal
message. -/
theorem scrape_urls_failure_isolation_witness :
    (scrape_urls cfgD envFault ["http://x.com".toList]).length = 1 ∧
    (scrape_urls cfgD envFault ["http://x.com".toList])[0]? =
      some { source_url := "http://x.com".toList, status := .error,
             error_message := some (internalErrorMsg
               ⟨"ValueError".toList, "boom".toList⟩) } :=
  ⟨(scrape_urls_failure_isolation cfgD envFault ["http://x.com".toList]).1,
   (scrape_urls_failure_isolation cfgD envFault ["http://x.com".toList]).2.1
     0 "http://x.com".toList ⟨"ValueError".toList, "boom".toList⟩ rfl rfl⟩


/-! ## C9: the semaphore bounds concurrent work -/

theorem countP_set_same {p : TaskPhase → Bool} :
    ∀ (l : List TaskPhase) (i : Nat) (a b : TaskPhase),
      l[i]? = some a → p a = p b → (l.set i b).countP p = l.countP p
  | [], _, _, _, h, _ => by cases h
  | x :: t, 0, a, b, h, hpab => by
    obtain rfl : x = a := by simpa using h
    simp only [List.set_cons_zero, List.countP_cons, hpab]
  | x :: t, i + 1, a, b, h, hpab => by
    simp only [List.getElem?_cons_succ] at h
    simp only [List.set_cons_succ, List.countP_cons,
      countP_set_same t i a b h hpab]

theorem countP_set_incr {p : TaskPhase → Bool} :
    ∀ (l : List TaskPhase) (i : Nat) (a b : TaskPhase),
      l[i]? = some a → p a = false → p b = true →
      (l.set i b).countP p = l.countP p + 1
  | [], _, _, _, h, _, _ => by cases h
  | x :: t, 0, a, b, h, hpa, hpb => by
    obtain rfl : x = a := by simpa using h
    simp only [List.set_cons_zero, List.countP_cons, hpa, hpb]
    simp
  | x :: t, i + 1, a, b, h, hpa, hpb => by
    simp only [List.getElem?_cons_succ] at h
    simp only [List.set_cons_succ, List.countP_cons,
      countP_set_incr t i a b h hpa hpb]
    omega

theorem countP_set_decr {p : TaskPhase → Bool} :
    ∀ (l : List TaskPhase) (i : Nat) (a b : TaskPhase),
      l[i]? = some a → p a = true → p b = false →
      l.countP p = (l.set i b).countP p + 1
  | [], _, _, _, h, _, _ => by cases h
  | x :: t, 0, a, b, h, hpa, hpb => by
    obtain rfl : x = a := by simpa using h
    simp only [List.set_cons_zero, List.countP_cons, hpa, hpb]
    simp
  | x :: t, i + 1, a, b, h, hpa, hpb => by
    simp only [List.getElem?_cons_succ] at h
    have ih := countP_set_decr t i a b h hpa hpb
    simp only [List.set_cons_succ, List.countP_cons]
    omega

/-- The conservation invariant: every working task holds one semaphore slot,
so slots held plus slots free equal the capacity. -/
theorem semaphore_invariant {n cap : Nat} {s : SchedState}
    (h : SchedReach n cap s) : workingCount s + s.avail = cap := by
  induction h with
  | init =>
    simp only [initState, workingCount]
    rw [List.countP_eq_zero.mpr ?_]
    · exact Nat.zero_add cap
    · intro a ha
      rw [List.eq_of_mem_replicate ha]
      decide
  | @step s t _ hstep ih =>
    cases hstep with
    | finishDelay i hi =>
      have hc : (s.phases.set i TaskPhase.waiting).countP
          (fun ph => ph = TaskPhase.working) =
          s.phases.countP (fun ph => ph = TaskPhase.working) :=
        @countP_set_same (fun ph => ph = TaskPhase.working) s.phases i
          TaskPhase.initial TaskPhase.waiting hi (by decide)
      simpa [workingCount, hc] using ih
    | acquire i hi hv =>
      have hc := @countP_set_incr (fun ph => ph = TaskPhase.working) s.phases i
        TaskPhase.waiting TaskPhase.working hi (by decide) (by decide)
      simp only [workingCount] at ih ⊢
      rw [hc]
      omega
    | release i hi =>
      have hc := @countP_set_decr (fun ph => ph = TaskPhase.working) s.phases i
        TaskPhase.working TaskPhase.done hi (by decide) (by decide)
      simp only [workingCount] at ih ⊢
      omega

/-- C9: in every state reachable during a run, the number of tasks inside
their fetch/extract work never exceeds the semaphore capacity
`Config.CONCURRENCY`, and each working task accounts for exactly one held
slot (`working + free = capacity`); any number of the remaining tasks may sit
in the waiting phase. -/
theorem semaphore_bounds_working (cfg : Config) (n : Nat) (s : SchedState)
    (h : SchedReach n cfg.concurrency s) :
    workingCount s + s.avail = cfg.concurrency ∧
    workingCount s ≤ cfg.concurrency := by
  have hinv := semaphore_invariant h
  exact ⟨hinv, Nat.le.intro hinv⟩

/-- A configuration with concurrency capacity 1, for the scheduler witness. -/
def cfgDC : Config := ⟨"12.0".toList, 1, 40, 10⟩

/-- Witness for `semaphore_bounds_working`: a state of a two-task run under
capacity 1 in which task 0 has acquired the slot. -/
theorem semaphore_bounds_working_witness :
    workingCount ⟨[TaskPhase.working, TaskPhase.initial], 0⟩ + (0 : Nat) =
      cfgDC.concurrency ∧
    workingCount ⟨[TaskPhase.working, TaskPhase.initial], 0⟩ ≤ cfgDC.concurrency := by
  have h0 : SchedReach 2 cfgDC.concurrency (initState 2 cfgDC.concurrency) :=
    SchedReach.init
  have hs1 : SchedStep (initState 2 cfgDC.concurrency)
      (⟨[TaskPhase.waiting, TaskPhase.initial], 1⟩ : SchedState) := by
    have h := SchedStep.finishDelay (initState 2 cfgDC.concurrency) 0 (by decide)
    exact h
  have h1 : SchedReach 2 cfgDC.concurrency
      (⟨[TaskPhase.waiting, TaskPhase.initial], 1⟩ : SchedState) :=
    SchedReach.step h0 hs1
  have hs2 : SchedStep (⟨[TaskPhase.waiting, TaskPhase.initial], 1⟩ : SchedState)
      (⟨[TaskPhase.working, TaskPhase.initial], 0⟩ : SchedState) := by
    have h := SchedStep.acquire ⟨[TaskPhase.waiting, TaskPhase.initial], 1⟩ 0
      (by decide) (by decide)
    exact h
  exact semaphore_bounds_working cfgDC 2 _ (SchedReach.step h1 hs2)

/-! ## C3: deduplication and the cap in `extract_pdf_urls` -/

theorem mem_insertNew {acc : List (List Char)} {u v : List Char} :
    v ∈ insertNew acc u ↔ v ∈ acc ∨ v = u := by
  unfold insertNew
  split
  · constructor
    · exact Or.inl
    · rintro (h | rfl)
      · exact h
      · assumption
  · simp [List.mem_append]

theorem nodup_insertNew {acc : List (List Char)} {u : List Char}
    (h : acc.Nodup) : (insertNew acc u).Nodup := by
  unfold insertNew
  split
  · exact h
  · rename_i hnot
    simpa [List.nodup_append, h] using hnot

theorem mem_addNormalized {acc : List (List Char)} {raw v : List Char} :
    v ∈ addNormalized acc raw ↔ v ∈ acc ∨ normalize_url raw = some v := by
  unfold addNormalized
  cases h : normalize_url raw with
  | none => simp
  | some n =>
    rw [mem_insertNew]
    constructor
    · rintro (hv | rfl)
      · exact Or.inl hv
      · exact Or.inr rfl
    · rintro (hv | hv)
      · exact Or.inl hv
      · exact Or.inr (Option.some.inj hv).symm

theorem nodup_addNormalized {acc : List (List Char)} {raw : List Char}
    (h : acc.Nodup) : (addNormalized acc raw).Nodup := by
  unfold addNormalized
  cases normalize_url raw with
  | none => exact h
  | some n => exact nodup_insertNew h

theorem mem_foldl_addNormalized :
    ∀ (l : List (List Char)) (acc : List (List Char)) (v : List Char),
      v ∈ l.foldl addNormalized acc ↔
        v ∈ acc ∨ ∃ m ∈ l, normalize_url m = some v
  | [], acc, v => by simp
  | m :: t, acc, v => by
    simp only [List.foldl_cons]
    rw [mem_foldl_addNormalized t (addNormalized acc m) v, mem_addNormalized]
    simp only [List.mem_cons]
    constructor
    · rintro ((hv | hv) | ⟨m2, hm2, hnv⟩)
      · exact Or.inl hv
      · exact Or.inr ⟨m, Or.inl rfl, hv⟩
      · exact Or.inr ⟨m2, Or.inr hm2, hnv⟩
    · rintro (hv | ⟨m2, (rfl | hm2), hnv⟩)
      · exact Or.inl (Or.inl hv)
      · exact Or.inl (Or.inr hnv)
      · exact Or.inr ⟨m2, hm2, hnv⟩

theorem nodup_foldl_addNormalized :
    ∀ (l : List (List Char)) (acc : List (List Char)), acc.Nodup →
      (l.foldl addNormalized acc).Nodup
  | [], _, h => h
  | m :: t, acc, h => by
    simp only [List.foldl_cons]
    exact nodup_foldl_addNormalized t _ (nodup_addNormalized h)

/-- The per-link accumulation step of `collectPage`. -/
theorem mem_addLink {acc : List (List Char)} {uri : Option (List Char)} {v : List Char} :
    v ∈ (match uri with
          | some [] => acc
          | some u => addNormalized acc u
          | none => acc) ↔
      v ∈ acc ∨ ∃ u, uri = some u ∧ u ≠ [] ∧ normalize_url u = some v := by
  cases uri with
  | none => simp
  | some u =>
    cases u with
    | nil => simp
    | cons c t =>
      rw [mem_addNormalized]
      constructor
      · rintro (hv | hv)
        · exact Or.inl hv
        · exact Or.inr ⟨c :: t, rfl, by simp, hv⟩
      · rintro (hv | ⟨u2, hu2, -, hnv⟩)
        · exact Or.inl hv
        · cases hu2
          exact Or.inr hnv

theorem mem_foldl_addLink :
    ∀ (l : List (Option (List Char))) (acc : List (List Char)) (v : List Char),
      v ∈ l.foldl (fun a uri =>
          match uri with
          | some [] => a
          | some u => addNormalized a u
          | none => a) acc ↔
        v ∈ acc ∨ ∃ u, some u ∈ l ∧ u ≠ [] ∧ normalize_url u = some v
  | [], acc, v => by simp
  | uri :: t, acc, v => by
    simp only [List.foldl_cons]
    rw [mem_foldl_addLink t _ v, mem_addLink]
    simp only [List.mem_cons]
    constructor
    · rintro ((hv | ⟨u, rfl, hne, hnv⟩) | ⟨u, hu, hne, hnv⟩)
      · exact Or.inl hv
      · exact Or.inr ⟨u, Or.inl rfl, hne, hnv⟩
      · exact Or.inr ⟨u, Or.inr hu, hne, hnv⟩
    · rintro (hv | ⟨u, (hu | hu), hne, hnv⟩)
      · exact Or.inl (Or.inl hv)
      · exact Or.inl (Or.inr ⟨u, hu.symm, hne, hnv⟩)
      · exact Or.inr ⟨u, hu, hne, hnv⟩

theorem nodup_foldl_addLink :
    ∀ (l : List (Option (List Char))) (acc : List (List Char)), acc.Nodup →
      (l.foldl (fun a uri =>
          match uri with
          | some [] => a
          | some u => addNormalized a u
          | none => a) acc).Nodup
  | [], _, h => h
  | uri :: t, acc, h => by
    simp only [List.foldl_cons]
    refine nodup_foldl_addLink t _ ?_
    cases uri with
    | none => exact h
    | some u =>
      cases u with
      | nil => exact h
      | cons c t2 => exact nodup_addNormalized h

theorem mem_collectPage {acc : List (List Char)} {p : Page} {v : List Char} :
    v ∈ collectPage acc p ↔ v ∈ acc ∨ pageFound p v := by
  unfold collectPage pageFound
  rw [mem_foldl_addLink, mem_foldl_addNormalized]
  exact or_assoc

theorem nodup_collectPage {acc : List (List Char)} {p : Page}
    (h : acc.Nodup) : (collectPage acc p).Nodup := by
  unfold collectPage
  exact nodup_foldl_addLink _ _ (nodup_foldl_addNormalized _ _ h)

theorem mem_foldl_collectPage :
    ∀ (doc : List Page) (acc : List (List Char)) (v : List Char),
      v ∈ doc.foldl collectPage acc ↔ v ∈ acc ∨ ∃ p ∈ doc, pageFound p v
  | [], acc, v => by simp
  | p :: t, acc, v => by
    simp only [List.foldl_cons]
    rw [mem_foldl_collectPage t _ v, mem_collectPage]
    simp only [List.mem_cons]
    constructor
    · rintro ((hv | hv) | ⟨p2, hp2, hf⟩)
      · exact Or.inl hv
      · exact Or.inr ⟨p, Or.inl rfl, hv⟩
      · exact Or.inr ⟨p2, Or.inr hp2, hf⟩
    · rintro (hv | ⟨p2, (rfl | hp2), hf⟩)
      · exact Or.inl (Or.inl hv)
      · exact Or.inl (Or.inr hf)
      · exact Or.inr ⟨p2, hp2, hf⟩

theorem count_le_one_of_nodup :
    ∀ {l : List (List Char)}, l.Nodup → ∀ u, l.count u ≤ 1 := by
  intro l
  induction l with
  | nil => intro _ u; simp
  | cons a t ih =>
    intro h u
    rw [List.nodup_cons] at h
    rw [List.count_cons]
    by_cases hau : u = a
    · subst hau
      rw [List.count_eq_zero_of_not_mem h.1]
      simp
    · have hb : (a == u) = false := by
        simp only [beq_eq_false_iff_ne, ne_eq]
        exact fun he => hau he.symm
      rw [hb]
      simpa using ih h.2 u

theorem count_eq_one_of_mem_nodup {l : List (List Char)} {u : List Char}
    (h : l.Nodup) (hm : u ∈ l) : l.count u = 1 :=
  Nat.le_antisymm (count_le_one_of_nodup h u) (List.count_pos_iff.mpr hm)

theorem nodup_collect_urls (doc : List Page) : (collect_urls doc).Nodup := by
  unfold collect_urls
  have : ∀ (d : List Page) (acc : List (List Char)), acc.Nodup →
      (d.foldl collectPage acc).Nodup := by
    intro d
    induction d with
    | nil => exact fun _ h => h
    | cons p t ih =>
      intro acc h
      simp only [List.foldl_cons]
      exact ih _ (nodup_collectPage h)
  exact this doc [] List.nodup_nil

theorem mem_collect_urls {doc : List Page} {v : List Char} :
    v ∈ collect_urls doc ↔ foundIn doc v := by
  unfold collect_urls foundIn
  rw [mem_foldl_collectPage]
  simp

/-- C3: under the `random.shuffle` contract (the shuffled list is a
permutation of its input), `extract_pdf_urls` returns a duplicate-free list
whose length is exactly `min max_urls d`, where `d` is the number of
distinct canonical URLs found in the document; any URL found at least once —
however many times it occurs, verbatim or as trailing-punctuation variants
normalizing to the same canonical form — occupies exactly one slot of the
accumulated set and at most one slot of the returned list. -/
theorem extract_pdf_urls_dedup_cap (doc : List Page) (k : Nat)
    (shuffle : List (List Char) → List (List Char))
    (hs : (shuffle (collect_urls doc)).Perm (collect_urls doc)) :
    (extract_pdf_urls doc k shuffle).Nodup ∧
    (extract_pdf_urls doc k shuffle).length = min k (collect_urls doc).length ∧
    (collect_urls doc).Nodup ∧
    (∀ u, u ∈ collect_urls doc ↔ foundIn doc u) ∧
    (∀ u, foundIn doc u → (collect_urls doc).count u = 1) ∧
    (∀ u, (extract_pdf_urls doc k shuffle).count u ≤ 1) := by
  have hnodup : (collect_urls doc).Nodup := nodup_collect_urls doc
  have hsnodup : (shuffle (collect_urls doc)).Nodup := hs.nodup_iff.mpr hnodup
  have htake : (extract_pdf_urls doc k shuffle).Nodup :=
    (List.take_sublist k _).nodup hsnodup
  refine ⟨htake, ?_, hnodup, fun u => mem_collect_urls, ?_, ?_⟩
  · unfold extract_pdf_urls
    rw [List.length_take, hs.length_eq]
  · intro u hu
    exact count_eq_one_of_mem_nodup hnodup (mem_collect_urls.mpr hu)
  · intro u
    exact count_le_one_of_nodup htake u

/-- A concrete one-page document whose text contains the same URL twice, as a
trailing-punctuation variant, and whose single link repeats it again. -/
def docW : List Page :=
  [{ textMatches := some ["http://x.com/a".toList, "http://x.com/a).".toList],
      links := some [some "http://x.com/a".toList, none] }]

/-- Witness for `extract_pdf_urls_dedup_cap`: the duplicate-laden document
yields exactly one canonical URL, and a cap of 3 returns a one-element list. -/
theorem extract_pdf_urls_dedup_cap_witness :
    (extract_pdf_urls docW 3 id).Nodup ∧
    (extract_pdf_urls docW 3 id).length = min 3 (collect_urls docW).length ∧
    (collect_urls docW).Nodup ∧
    (∀ u, u ∈ collect_urls docW ↔ foundIn docW u) ∧
    (∀ u, foundIn docW u → (collect_urls docW).count u = 1) ∧
    (∀ u, (extract_pdf_urls docW 3 id).count u ≤ 1) :=
  extract_pdf_urls_dedup_cap docW 3 id (List.Perm.refl _)

/-! ## C7 / C8: `normalize_url` rejection conditions, fragments, idempotence -/

/-- The last character of an accepted output is not whitespace and not in the
trailing-punctuation set (the preprocessing of a second `normalize_url` pass
is the identity exactly on such outputs). -/
def cleanEnd (u : List Char) : Bool :=
  match u.getLast? with
  | some c => !(pyWs c || isTrailingPunct c)
  | none => true

theorem cleanEnd_spec {u : List Char} (h : cleanEnd u = true) :
    ∀ c, u.getLast? = some c → pyWs c = false ∧ isTrailingPunct c = false := by
  intro c hc
  unfold cleanEnd at h
  rw [hc] at h
  simpa using h

theorem dropWhileRight_eq_self {p : Char → Bool} {s : List Char}
    (h : ∀ c, s.getLast? = some c → p c = false) : dropWhileRight p s = s := by
  unfold dropWhileRight
  cases hs : s.reverse with
  | nil => simpa using congrArg List.reverse hs
  | cons c t =>
    have hlast : s.getLast? = some c := by
      rw [← List.head?_reverse, hs]
      rfl
    rw [List.dropWhile_cons_of_neg (by simp [h c hlast]), ← hs, List.reverse_reverse]

theorem pyStrip_eq_self {s : List Char}
    (h1 : ∀ c, s.head? = some c → pyWs c = false)
    (h2 : ∀ c, s.getLast? = some c → pyWs c = false) : pyStrip s = s := by
  unfold pyStrip
  have hd : s.dropWhile pyWs = s := by
    cases s with
    | nil => rfl
    | cons c t => rw [List.dropWhile_cons_of_neg (by simp [h1 c rfl])]
  rw [hd]
  exact dropWhileRight_eq_self h2

theorem strip_trailing_punct_eq_self {s : List Char}
    (h : ∀ c, s.getLast? = some c → isTrailingPunct c = false) :
    strip_trailing_punct s = s :=
  dropWhileRight_eq_self h

theorem splitFirst_of_not_mem {c : Char} {s : List Char} (h : ∀ d ∈ s, d ≠ c) :
    splitFirst c s = (s, []) := by
  unfold splitFirst
  rw [takeWhile_eq_self fun d hd => decide_eq_true (h d hd),
    dropWhile_eq_nil fun d hd => decide_eq_true (h d hd)]
  rfl

theorem splitFirst_append {c : Char} {l t : List Char} (hl : ∀ d ∈ l, d ≠ c) :
    splitFirst c (l ++ c :: t) = (l, t) := by
  unfold splitFirst
  have hall : ∀ d ∈ l, (fun x => decide (x ≠ c)) d = true :=
    fun d hd => decide_eq_true (hl d hd)
  have hstop := @takeWhile_append_stop (fun x => decide (x ≠ c)) l c t hall (by simp)
  rw [hstop.1, hstop.2]
  rfl

/-- Case equation for `normalize_url` when parsing succeeds. -/
theorem normalize_url_eq_some_case (raw : List Char) (p : SplitResult)
    (hq : urlsplit (preprocess raw) = some p) :
    normalize_url raw =
      if ¬ schemeOK p then none
      else if p.netloc = [] then none
      else some (urlunsplit { p with fragment := [] }) := by
  unfold normalize_url
  rw [hq]

/-- Inversion of a successful `normalize_url`. -/
theorem normalize_url_some_inv {raw u : List Char} (h : normalize_url raw = some u) :
    ∃ p, urlsplit (preprocess raw) = some p ∧ schemeOK p ∧ p.netloc ≠ [] ∧
      u = urlunsplit { p with fragment := [] } := by
  cases hq : urlsplit (preprocess raw) with
  | none =>
    unfold normalize_url at h
    rw [hq] at h
    cases h
  | some p =>
    rw [normalize_url_eq_some_case raw p hq] at h
    by_cases hsch : schemeOK p
    · rw [if_neg (not_not_intro hsch)] at h
      by_cases hn : p.netloc = []
      · rw [if_pos hn] at h; cases h
      · rw [if_neg hn] at h
        exact ⟨p, rfl, hsch, hn, (Option.some.inj h).symm⟩
    · rw [if_pos hsch] at h; cases h

/-- The accepted-output form of `normalize_url`. -/
theorem normalize_url_some_form (raw : List Char) (p : SplitResult)
    (h : urlsplit (preprocess raw) = some p) (hs : schemeOK p) (hn : p.netloc ≠ []) :
    normalize_url raw = some (urlunsplit { p with fragment := [] }) := by
  rw [normalize_url_eq_some_case raw p h, if_neg (not_not_intro hs), if_neg hn]

/-- The rejection conditions of `normalize_url`, exactly. -/
theorem normalize_url_none_iff (raw : List Char) :
    normalize_url raw = none ↔
      urlsplit (preprocess raw) = none ∨
      ∃ p, urlsplit (preprocess raw) = some p ∧ (¬ schemeOK p ∨ p.netloc = []) := by
  cases hq : urlsplit (preprocess raw) with
  | none =>
    unfold normalize_url
    rw [hq]
    simp
  | some p =>
    rw [normalize_url_eq_some_case raw p hq]
    constructor
    · intro h
      refine Or.inr ⟨p, rfl, ?_⟩
      by_cases hs : schemeOK p
      · rw [if_neg (not_not_intro hs)] at h
        by_cases hn : p.netloc = []
        · exact Or.inr hn
        · rw [if_neg hn] at h; cases h
      · exact Or.inl hs
    · rintro (h | ⟨p2, hp2, hcond⟩)
      · cases h
      · obtain rfl : p = p2 := Option.some.inj hp2
        rcases hcond with hs | hn
        · rw [if_pos hs]
        · by_cases hs2 : schemeOK p
          · rw [if_neg (not_not_intro hs2), if_pos hn]
          · rw [if_pos hs2]

/-- Two inputs whose preprocessed forms parse to the same components apart
from the fragment normalize identically. -/
theorem normalize_url_congr_components {raw raw2 : List Char} {p p2 : SplitResult}
    (h1 : urlsplit (preprocess raw) = some p)
    (h2 : urlsplit (preprocess raw2) = some p2)
    (he : { p with fragment := ([] : List Char) } =
          { p2 with fragment := ([] : List Char) }) :
    normalize_url raw = normalize_url raw2 := by
  have he2 := he
  rw [SplitResult.mk.injEq] at he2
  obtain ⟨hs, hn, -, -, -⟩ := he2
  have hok : schemeOK p ↔ schemeOK p2 := by unfold schemeOK; rw [hs]
  rw [normalize_url_eq_some_case raw p h1, normalize_url_eq_some_case raw2 p2 h2]
  by_cases hsp : schemeOK p
  · rw [if_neg (not_not_intro hsp), if_neg (not_not_intro (hok.mp hsp))]
    by_cases hnl : p.netloc = []
    · rw [if_pos hnl, if_pos (hn.symm.trans hnl)]
    · rw [if_neg hnl, if_neg (fun hh => hnl (hn.trans hh))]
      rw [he]
  · rw [if_pos hsp, if_pos (fun hh => hsp (hok.mpr hh))]

/-- Case equation of `urlsplit` when the post-scheme remainder starts `//`. -/
theorem urlsplit_eq_netloc_case (x : List Char)
    (hb : (splitScheme (removeUnsafe (lstripControl x))).2.take 2 = ['/', '/']) :
    urlsplit x =
      if bracketMismatch
          (((splitScheme (removeUnsafe (lstripControl x))).2.drop 2).takeWhile notDelim)
        then none
      else
        some ⟨(splitScheme (removeUnsafe (lstripControl x))).1,
          ((splitScheme (removeUnsafe (lstripControl x))).2.drop 2).takeWhile notDelim,
          (splitFirst '?' (splitFirst '#'
            (((splitScheme (removeUnsafe (lstripControl x))).2.drop 2).dropWhile notDelim)).1).1,
          (splitFirst '?' (splitFirst '#'
            (((splitScheme (removeUnsafe (lstripControl x))).2.drop 2).dropWhile notDelim)).1).2,
          (splitFirst '#'
            (((splitScheme (removeUnsafe (lstripControl x))).2.drop 2).dropWhile notDelim)).2⟩ := by
  unfold urlsplit
  simp only [hb, decide_eq_true_eq, eq_self_iff_true, if_true, true_and]

/-- Case equation of `urlsplit` when the post-scheme remainder has no `//`:
the netloc is empty. -/
theorem urlsplit_eq_nonetloc_case (x : List Char)
    (hb : ¬ (splitScheme (removeUnsafe (lstripControl x))).2.take 2 = ['/', '/']) :
    urlsplit x =
      some ⟨(splitScheme (removeUnsafe (lstripControl x))).1, [],
        (splitFirst '?' (splitFirst '#'
          ((splitScheme (removeUnsafe (lstripControl x))).2)).1).1,
        (splitFirst '?' (splitFirst '#'
          ((splitScheme (removeUnsafe (lstripControl x))).2)).1).2,
        (splitFirst '#' ((splitScheme (removeUnsafe (lstripControl x))).2)).2⟩ := by
  unfold urlsplit
  simp only [decide_eq_true_eq, hb, if_false, false_and, iff_false]

theorem splitScheme_snd_subset (s : List Char) :
    ∀ c ∈ (splitScheme s).2, c ∈ s := by
  intro c hc
  simp only [splitScheme] at hc
  split at hc
  · exact (List.dropWhile_sublist _).subset ((List.tail_sublist _).subset hc)
  · exact hc

theorem removeUnsafe_no_unsafe {s : List Char} {c : Char} (h : c ∈ removeUnsafe s) :
    ¬(c = '\t' ∨ c = '\r' ∨ c = '\n') := by
  intro hor
  have h2 := (List.mem_filter.mp h).2
  rcases hor with rfl | rfl | rfl <;> simp at h2

theorem notDelim_false_cases {c : Char} (h : notDelim c = false) :
    c = '/' ∨ c = '?' ∨ c = '#' := by
  unfold notDelim at h
  simp at h
  tauto

/-- Structural facts about the components of a `urlsplit` result with a
nonempty netloc. -/
theorem urlsplit_some_netloc_inv {x : List Char} {p : SplitResult}
    (h : urlsplit x = some p) (hn : p.netloc ≠ []) :
    (∀ c ∈ p.netloc, notDelim c = true) ∧
    ¬ bracketMismatch p.netloc ∧
    (p.path = [] ∨ ∃ t2, p.path = '/' :: t2) ∧
    (∀ c ∈ p.path, c ≠ '#' ∧ c ≠ '?') ∧
    (∀ c ∈ p.query, c ≠ '#') ∧
    (∀ c, (c ∈ p.netloc ∨ c ∈ p.path ∨ c ∈ p.query) →
      ¬(c = '\t' ∨ c = '\r' ∨ c = '\n')) := by
  by_cases hb : (splitScheme (removeUnsafe (lstripControl x))).2.take 2 = ['/', '/']
  case neg =>
    exfalso
    apply hn
    rw [urlsplit_eq_nonetloc_case x hb] at h
    have h2 := Option.some.inj h
    rw [← h2]
  case pos =>
    rw [urlsplit_eq_netloc_case x hb] at h
    by_cases hbm : bracketMismatch
        (((splitScheme (removeUnsafe (lstripControl x))).2.drop 2).takeWhile notDelim)
    · rw [if_pos hbm] at h
      cases h
    · rw [if_neg hbm] at h
      obtain rfl : p = _ := (Option.some.inj h).symm
      have hsub1 : ∀ c ∈ (splitScheme (removeUnsafe (lstripControl x))).2.drop 2,
          c ∈ removeUnsafe (lstripControl x) := by
        intro c hc
        exact splitScheme_snd_subset _ c (List.drop_subset _ _ hc)
      have hsubU3 : ∀ c ∈ ((splitScheme (removeUnsafe (lstripControl x))).2.drop 2).dropWhile
          notDelim, c ∈ removeUnsafe (lstripControl x) := by
        intro c hc
        exact hsub1 c ((List.dropWhile_sublist _).subset hc)
      have hsubF1 : ∀ c ∈ (splitFirst '#'
          (((splitScheme (removeUnsafe (lstripControl x))).2.drop 2).dropWhile notDelim)).1,
          c ∈ removeUnsafe (lstripControl x) := by
        intro c hc
        exact hsubU3 c ((List.takeWhile_sublist _).subset hc)
      have hF1hash : ∀ c ∈ (splitFirst '#'
          (((splitScheme (removeUnsafe (lstripControl x))).2.drop 2).dropWhile notDelim)).1,
          c ≠ '#' := by
        intro c hc
        have h3 := List.mem_takeWhile_imp hc
        simpa using h3
      refine ⟨?_, hbm, ?_, ?_, ?_, ?_⟩
      · intro c hc
        exact List.mem_takeWhile_imp hc
      · rcases dropWhile_head_neg notDelim
            ((splitScheme (removeUnsafe (lstripControl x))).2.drop 2) with hu3 | ⟨c, t, hu3, hcf⟩
        · left
          simp only [hu3]
          rfl
        · rcases notDelim_false_cases hcf with rfl | rfl | rfl
          · right
            refine ⟨((t.takeWhile (· ≠ '#')).takeWhile (· ≠ '?')), ?_⟩
            simp only [hu3, splitFirst]
            rw [List.takeWhile_cons_of_pos (by decide), List.takeWhile_cons_of_pos (by decide)]
          · left
            simp only [hu3, splitFirst]
            rw [List.takeWhile_cons_of_pos (by decide), List.takeWhile_cons_of_neg (by decide)]
          · left
            simp only [hu3, splitFirst]
            rw [List.takeWhile_cons_of_neg (by decide)]
            rfl
      · intro c hc
        constructor
        · exact hF1hash c ((List.takeWhile_sublist _).subset hc)
        · have h3 := List.mem_takeWhile_imp hc
          simpa using h3
      · intro c hc
        have hcf1 : c ∈ (splitFirst '#'
            (((splitScheme (removeUnsafe (lstripControl x))).2.drop 2).dropWhile notDelim)).1 := by
          have h4 : c ∈ ((splitFirst '#'
              (((splitScheme (removeUnsafe (lstripControl x))).2.drop 2).dropWhile
                notDelim)).1).dropWhile (· ≠ '?') :=
            (List.tail_sublist _).subset hc
          exact (List.dropWhile_sublist _).subset h4
        exact hF1hash c hcf1
      · intro c hcmem
        rcases hcmem with hc | hc | hc
        · exact removeUnsafe_no_unsafe
            (hsub1 c ((List.takeWhile_sublist _).subset hc))
        · exact removeUnsafe_no_unsafe
            (hsubF1 c ((List.takeWhile_sublist _).subset hc))
        · have hcf1 : c ∈ (splitFirst '#'
              (((splitScheme (removeUnsafe (lstripControl x))).2.drop 2).dropWhile
                notDelim)).1 := by
            have h4 : c ∈ ((splitFirst '#'
                (((splitScheme (removeUnsafe (lstripControl x))).2.drop 2).dropWhile
                  notDelim)).1).dropWhile (· ≠ '?') :=
              (List.tail_sublist _).subset hc
            exact (List.dropWhile_sublist _).subset h4
          exact removeUnsafe_no_unsafe (hsubF1 c hcf1)

theorem keep_of_not_unsafe {c : Char} (h : ¬(c = '\t' ∨ c = '\r' ∨ c = '\n')) :
    (!(c = '\t' || c = '\r' || c = '\n')) = true := by
  simp only [Bool.not_eq_true', Bool.or_eq_false_iff, decide_eq_false_iff_not]
  tauto

theorem splitScheme_concat {sch rest : List Char}
    (h1 : ∀ c ∈ sch, c ≠ ':')
    (h2 : sch ≠ [])
    (h3 : (sch.headD ' ').isAlpha = true)
    (h4 : sch.all schemeChar = true)
    (h5 : sch.map Char.toLower = sch) :
    splitScheme (sch ++ ':' :: rest) = (sch, rest) := by
  have hall : ∀ c ∈ sch, (fun x => decide (x ≠ ':')) c = true :=
    fun c hc => decide_eq_true (h1 c hc)
  have hstop := @takeWhile_append_stop (fun x => decide (x ≠ ':')) sch ':' rest hall (by simp)
  simp only [splitScheme]
  rw [hstop.1, hstop.2, if_pos ⟨by simp, h2, h3, h4⟩, h5]
  rfl

/-- Re-parsing a reassembled URL of the canonical accepted shape. -/
theorem urlsplit_concat (sch netloc X : List Char)
    (hschOK : sch = "http".toList ∨ sch = "https".toList)
    (hnet_all : ∀ c ∈ netloc, notDelim c = true)
    (hbm : ¬ bracketMismatch netloc)
    (hX : X = [] ∨ ∃ c t, X = c :: t ∧ notDelim c = false)
    (hXsharp : ∀ c ∈ X, c ≠ '#')
    (hunsafeAll : ∀ c ∈ netloc ++ X, ¬(c = '\t' ∨ c = '\r' ∨ c = '\n')) :
    urlsplit (sch ++ ':' :: '/' :: '/' :: (netloc ++ X)) =
      some ⟨sch, netloc, (splitFirst '?' X).1, (splitFirst '?' X).2, []⟩ := by
  have hu : lstripControl (sch ++ ':' :: '/' :: '/' :: (netloc ++ X)) =
      sch ++ ':' :: '/' :: '/' :: (netloc ++ X) := by
    rcases hschOK with rfl | rfl <;> rfl
  have hkeep : ∀ c ∈ sch ++ ':' :: '/' :: '/' :: (netloc ++ X),
      (!(c = '\t' || c = '\r' || c = '\n')) = true := by
    intro c hc
    rcases List.mem_append.mp hc with hc | hc
    · have hlit : ∀ d ∈ "https".toList ++ "http".toList,
          (!(d = '\t' || d = '\r' || d = '\n')) = true := by decide
      rcases hschOK with hsch | hsch <;> rw [hsch] at hc
      · exact hlit c (List.mem_append.mpr (Or.inr hc))
      · exact hlit c (List.mem_append.mpr (Or.inl hc))
    · simp only [List.mem_cons] at hc
      rcases hc with rfl | rfl | rfl | hc
      · decide
      · decide
      · decide
      · exact keep_of_not_unsafe (hunsafeAll c hc)
  have hrm : removeUnsafe (sch ++ ':' :: '/' :: '/' :: (netloc ++ X)) =
      sch ++ ':' :: '/' :: '/' :: (netloc ++ X) :=
    List.filter_eq_self.mpr hkeep
  have hsp : splitScheme (sch ++ ':' :: '/' :: '/' :: (netloc ++ X)) =
      (sch, '/' :: '/' :: (netloc ++ X)) := by
    refine splitScheme_concat ?_ ?_ ?_ ?_ ?_ <;>
      rcases hschOK with rfl | rfl <;> decide
  have hb : (splitScheme (removeUnsafe (lstripControl
      (sch ++ ':' :: '/' :: '/' :: (netloc ++ X))))).2.take 2 = ['/', '/'] := by
    rw [hu, hrm, hsp]
    rfl
  rw [urlsplit_eq_netloc_case _ hb, hu, hrm, hsp]
  have hsnd : (sch, '/' :: '/' :: (netloc ++ X)).2 = '/' :: '/' :: (netloc ++ X) := rfl
  have hfst : (sch, '/' :: '/' :: (netloc ++ X)).1 = sch := rfl
  rw [hsnd, hfst]
  have hdrop2 : ('/' :: '/' :: (netloc ++ X)).drop 2 = netloc ++ X := rfl
  rw [hdrop2]
  have htw : (netloc ++ X).takeWhile notDelim = netloc := by
    rcases hX with rfl | ⟨c, t, rfl, hcf⟩
    · rw [@takeWhile_append_all notDelim netloc [] hnet_all]
      simp
    · exact (@takeWhile_append_stop notDelim netloc c t hnet_all hcf).1
  have hdw : (netloc ++ X).dropWhile notDelim = X := by
    rcases hX with rfl | ⟨c, t, rfl, hcf⟩
    · rw [@dropWhile_append_all notDelim netloc [] hnet_all]
      simp
    · exact (@takeWhile_append_stop notDelim netloc c t hnet_all hcf).2
  rw [htw, hdw, if_neg hbm]
  have hsf : splitFirst '#' X = (X, []) := splitFirst_of_not_mem hXsharp
  rw [hsf]

/-- The canonical shape of an accepted reassembled URL. -/
theorem urlunsplit_shape {p : SplitResult}
    (hn : p.netloc ≠ []) (hs : p.scheme ≠ [])
    (hpath : p.path = [] ∨ ∃ t2, p.path = '/' :: t2) :
    urlunsplit { p with fragment := [] } =
      p.scheme ++ ':' :: '/' :: '/' ::
        (p.netloc ++ (p.path ++ (if p.query = [] then [] else '?' :: p.query))) := by
  have hE : ¬(p.path ≠ [] ∧ p.path.take 1 ≠ ['/']) := by
    rcases hpath with hp | ⟨t2, hp⟩ <;> rw [hp] <;> simp
  simp only [urlunsplit]
  rw [if_pos (Or.inl hn), if_neg hE, if_pos hs]
  by_cases hq : p.query = []
  · rw [if_neg (fun hh : p.query ≠ [] => hh hq), if_pos hq]
    simp [List.append_assoc]
  · rw [if_pos hq, if_neg hq]
    simp [List.append_assoc]

/-- C8 corrected: `normalize_url` is idempotent on every accepted output whose
final character is not whitespace and not in the trailing-punctuation set —
re-normalizing such an output returns the identical string.  (The
counterexample shows why the last-character condition is needed: a dropped
fragment can expose a trailing `.` that a second pass strips.) -/
theorem normalize_url_idem_amended (raw u : List Char)
    (h : normalize_url raw = some u) (hend : cleanEnd u = true) :
    normalize_url u = some u := by
  obtain ⟨p, hq, hsch, hn, rfl⟩ := normalize_url_some_inv h
  obtain ⟨hnetloc, hbm, hpath, hpathc, hqc, hunsafe⟩ := urlsplit_some_netloc_inv hq hn
  have hsne : p.scheme ≠ [] := by
    rcases hsch with h1 | h1 <;> rw [h1] <;> simp
  have hshape := urlunsplit_shape hn hsne hpath
  have hXcases : (p.path ++ (if p.query = [] then [] else '?' :: p.query)) = [] ∨
      ∃ c t, (p.path ++ (if p.query = [] then [] else '?' :: p.query)) = c :: t ∧
        notDelim c = false := by
    rcases hpath with hp | ⟨t2, hp⟩
    · rw [hp]
      by_cases hqe : p.query = []
      · rw [if_pos hqe]
        left
        rfl
      · rw [if_neg hqe]
        right
        exact ⟨'?', p.query, rfl, by decide⟩
    · rw [hp]
      right
      exact ⟨'/', t2 ++ (if p.query = [] then [] else '?' :: p.query), by simp, by decide⟩
  have hXsharp : ∀ c ∈ p.path ++ (if p.query = [] then [] else '?' :: p.query),
      c ≠ '#' := by
    intro c hc
    rcases List.mem_append.mp hc with hc | hc
    · exact (hpathc c hc).1
    · by_cases hqe : p.query = []
      · rw [if_pos hqe] at hc
        cases hc
      · rw [if_neg hqe] at hc
        rcases List.mem_cons.mp hc with rfl | hc
        · decide
        · exact hqc c hc
  have hunsafeAll : ∀ c ∈ p.netloc ++
      (p.path ++ (if p.query = [] then [] else '?' :: p.query)),
      ¬(c = '\t' ∨ c = '\r' ∨ c = '\n') := by
    intro c hc
    rcases List.mem_append.mp hc with hc | hc
    · exact hunsafe c (Or.inl hc)
    · rcases List.mem_append.mp hc with hc | hc
      · exact hunsafe c (Or.inr (Or.inl hc))
      · by_cases hqe : p.query = []
        · rw [if_pos hqe] at hc
          cases hc
        · rw [if_neg hqe] at hc
          rcases List.mem_cons.mp hc with rfl | hc
          · decide
          · exact hunsafe c (Or.inr (Or.inr hc))
  have hreparse := urlsplit_concat p.scheme p.netloc
    (p.path ++ (if p.query = [] then [] else '?' :: p.query))
    hsch hnetloc hbm hXcases hXsharp hunsafeAll
  have hsfq : splitFirst '?' (p.path ++ (if p.query = [] then [] else '?' :: p.query)) =
      (p.path, p.query) := by
    by_cases hqe : p.query = []
    · rw [if_pos hqe, List.append_nil,
        splitFirst_of_not_mem (fun d hd => (hpathc d hd).2), hqe]
    · rw [if_neg hqe]
      exact splitFirst_append (fun d hd => (hpathc d hd).2)
  rw [hsfq] at hreparse
  have hlastc := cleanEnd_spec hend
  have hheadval : (urlunsplit { p with fragment := ([] : List Char) }).head? = some 'h' := by
    rw [hshape]
    rcases hsch with h1 | h1 <;> rw [h1] <;> rfl
  have hps : pyStrip (urlunsplit { p with fragment := ([] : List Char) }) =
      urlunsplit { p with fragment := ([] : List Char) } := by
    refine pyStrip_eq_self ?_ ?_
    · intro c hc
      rw [hheadval] at hc
      obtain rfl : 'h' = c := Option.some.inj hc
      decide
    · intro c hc
      exact (hlastc c hc).1
  have hstp : strip_trailing_punct (urlunsplit { p with fragment := ([] : List Char) }) =
      urlunsplit { p with fragment := ([] : List Char) } := by
    refine strip_trailing_punct_eq_self ?_
    intro c hc
    exact (hlastc c hc).2
  have hwww : ¬(((urlunsplit { p with fragment := ([] : List Char) }).map
      Char.toLower).take 4 = "www.".toList) := by
    intro hcontra
    have hhl : (((urlunsplit { p with fragment := ([] : List Char) }).map
        Char.toLower).take 4).head? = some 'w' := by
      rw [hcontra]
      rfl
    have hhl2 : (((urlunsplit { p with fragment := ([] : List Char) }).map
        Char.toLower).take 4).head? = some 'h' := by
      rw [hshape]
      rcases hsch with h1 | h1 <;> rw [h1] <;> rfl
    rw [hhl2] at hhl
    exact absurd (Option.some.inj hhl) (by decide)
  have hpre : preprocess (urlunsplit { p with fragment := ([] : List Char) }) =
      urlunsplit { p with fragment := ([] : List Char) } := by
    simp only [preprocess]
    rw [hps, hstp, if_neg hwww]
  have hq2 : urlsplit (preprocess (urlunsplit { p with fragment := ([] : List Char) })) =
      some ({ p with fragment := [] }) := by
    rw [hpre, hshape, hreparse]
  rw [normalize_url_eq_some_case _ _ hq2,
    if_neg (not_not_intro (show schemeOK ({ p with fragment := [] }) from hsch))]
  rw [if_neg hn]

/-- Witness for `normalize_url_idem_amended`: a clean-ended canonical URL
re-normalizes to itself. -/
theorem normalize_url_idem_amended_witness :
    normalize_url "http://x.com/a".toList = some "http://x.com/a".toList :=
  normalize_url_idem_amended "http://x.com/a".toList "http://x.com/a".toList
    (by decide) (by decide)

/-- C8 counterexample: `normalize_url` is not idempotent on all accepted
outputs.  The raw string `http://x.com/a.#f` normalizes to the accepted
output `http://x.com/a.` (the trailing `.` was shielded by the fragment),
but re-normalizing that output strips the `.` and returns a different
string. -/
theorem normalize_url_idem_counterexample :
    normalize_url "http://x.com/a.#f".toList = some "http://x.com/a.".toList ∧
    normalize_url "http://x.com/a.".toList ≠ some "http://x.com/a.".toList := by
  refine ⟨by decide, by decide⟩

/-- C7 counterexample: two inputs differing only by fragment — the spec's own
fragment-elision pattern `X` vs `X#frag` — need not normalize to the same
string: with `X = "http://x.com/a."` the fragmentless input has its trailing
`.` stripped before parsing while in `X#f` that `.` sits in the path,
shielded from stripping by the fragment. -/
theorem normalize_url_fragment_counterexample :
    normalize_url "http://x.com/a.#f".toList = some "http://x.com/a.".toList ∧
    normalize_url "http://x.com/a.".toList = some "http://x.com/a".toList ∧
    normalize_url "http://x.com/a.#f".toList ≠ normalize_url "http://x.com/a.".toList := by
  refine ⟨by decide, by decide, by decide⟩

/-- C7 corrected: `normalize_url` rejects exactly when, after trimming
whitespace, stripping the trailing-punctuation set and prefixing `http://`
to a `www.`-prefixed string, the result fails to parse, its scheme is not
exactly `http`/`https`, or its host is empty; every accepted output is the
reassembled URL with the fragment dropped; and two inputs whose preprocessed
forms parse to identical components apart from the fragment normalize to the
same result. -/
theorem normalize_url_rejection_and_fragment (raw : List Char) :
    (normalize_url raw = none ↔
      urlsplit (preprocess raw) = none ∨
      ∃ p, urlsplit (preprocess raw) = some p ∧ (¬ schemeOK p ∨ p.netloc = [])) ∧
    (∀ p, urlsplit (preprocess raw) = some p → schemeOK p → p.netloc ≠ [] →
      normalize_url raw = some (urlunsplit { p with fragment := [] })) ∧
    (∀ raw2 p p2, urlsplit (preprocess raw) = some p →
      urlsplit (preprocess raw2) = some p2 →
      { p with fragment := ([] : List Char) } = { p2 with fragment := ([] : List Char) } →
      normalize_url raw = normalize_url raw2) :=
  ⟨normalize_url_none_iff raw,
   fun p hp hs hn => normalize_url_some_form raw p hp hs hn,
   fun _ p p2 h1 h2 he => normalize_url_congr_components h1 h2 he⟩

/-- Witness for `normalize_url_rejection_and_fragment`: the `ftp` scheme is
rejected. -/
theorem normalize_url_rejection_and_fragment_witness :
    normalize_url "ftp://x.com".toList = none :=
  (normalize_url_rejection_and_fragment "ftp://x.com".toList).1.mpr
    (Or.inr ⟨⟨"ftp".toList, "x.com".toList, [], [], []⟩, by decide, Or.inl (by decide)⟩)
